import Mathlib

/-!
Shallow embedding of the `cc-wc` word-count utility (`src/main.rs`) and proofs
of the specification claims about it.

The byte stream of an input source is modelled as `List Nat` (each element a
byte value `< 256`); decoded text is a `List Nat` of Unicode scalar values.
The `u64` counters are modelled as `Nat`: the spec's invariant guarantees
64-bit headroom and Rust debug builds abort on overflow, so the unbounded
naturals are the intended values.  Fallible operations (`expect` panics) are
modelled with `Option`, `none` standing for abnormal termination.
-/

namespace Wc

/-- The `Mode` enum of `main.rs`: the four requested-metric flags.  The derived
Rust `Ord` orders constructors in declaration order:
`Lines < Words < Chars < Bytes`. -/
inductive Mode where
  | Lines
  | Words
  | Chars
  | Bytes
deriving DecidableEq

/-- Declaration index of a `Mode` constructor; the derived Rust `Ord`
compares constructors by it. -/
def Mode.idx : Mode → Nat
  | .Lines => 0
  | .Words => 1
  | .Chars => 2
  | .Bytes => 3

instance : LinearOrder Mode :=
  LinearOrder.lift' Mode.idx (fun a b h => by
    cases a <;> cases b <;> simp_all [Mode.idx])

/-- `Mode::from_str`: maps a recognized command-line flag token to its metric;
any other token yields `None` (and is later treated as a filename). -/
def Mode.from_str (s : String) : Option Mode :=
  if s = "-l" then some .Lines
  else if s = "-w" then some .Words
  else if s = "-m" then some .Chars
  else if s = "-c" then some .Bytes
  else none

/-- `CountResult` of `main.rs`: four counters plus the optional display label. -/
structure CountResult where
  summary : Option String
  lines : Nat
  words : Nat
  chars : Nat
  bytes : Nat
deriving DecidableEq

/-- `CountResult::result_from_mode`: project the counter selected by a mode. -/
def CountResult.result_from_mode (r : CountResult) (m : Mode) : Nat :=
  match m with
  | .Lines => r.lines
  | .Words => r.words
  | .Chars => r.chars
  | .Bytes => r.bytes

/-- `CountResult::default()`: all counters zero, no label. -/
def emptyCount : CountResult :=
  { summary := none, lines := 0, words := 0, chars := 0, bytes := 0 }

/-- A UTF-8 continuation byte, `0x80 ..= 0xBF`. -/
def isCont (b : Nat) : Bool := 0x80 ≤ b && b ≤ 0xBF

/-- Admissible second byte of a three-byte UTF-8 sequence, given its lead byte
(the ranges that exclude overlong encodings and surrogates, as enforced by
Rust `String::from_utf8`). -/
def cont3 (b0 b1 : Nat) : Bool :=
  if b0 = 0xE0 then 0xA0 ≤ b1 && b1 ≤ 0xBF
  else if b0 = 0xED then 0x80 ≤ b1 && b1 ≤ 0x9F
  else isCont b1

/-- Admissible second byte of a four-byte UTF-8 sequence, given its lead byte
(the ranges that exclude overlong encodings and values above `U+10FFFF`). -/
def cont4 (b0 b1 : Nat) : Bool :=
  if b0 = 0xF0 then 0x90 ≤ b1 && b1 ≤ 0xBF
  else if b0 = 0xF4 then 0x80 ≤ b1 && b1 ≤ 0x8F
  else isCont b1

/-- Decode one UTF-8 scalar value from the front of a byte list, returning the
code point and the remaining bytes, or `none` if the bytes do not start with a
valid UTF-8 sequence.  This is exactly the validity condition of Rust
`String::from_utf8` (strict UTF-8: no overlongs, no surrogates, max
`U+10FFFF`). -/
def decodeOne : List Nat → Option (Nat × List Nat)
  | [] => none
  | b0 :: rest =>
    if b0 < 0x80 then some (b0, rest)
    else if b0 < 0xC2 then none
    else if b0 ≤ 0xDF then
      match rest with
      | b1 :: rest1 =>
        if isCont b1 then some (0x40 * (b0 - 0xC0) + (b1 - 0x80), rest1) else none
      | [] => none
    else if b0 ≤ 0xEF then
      match rest with
      | b1 :: b2 :: rest2 =>
        if cont3 b0 b1 && isCont b2 then
          some (0x1000 * (b0 - 0xE0) + 0x40 * (b1 - 0x80) + (b2 - 0x80), rest2)
        else none
      | _ => none
    else if b0 ≤ 0xF4 then
      match rest with
      | b1 :: b2 :: b3 :: rest3 =>
        if cont4 b0 b1 && isCont b2 && isCont b3 then
          some (0x40000 * (b0 - 0xF0) + 0x1000 * (b1 - 0x80) +
            0x40 * (b2 - 0x80) + (b3 - 0x80), rest3)
        else none
      | _ => none
    else none

/-- Fuelled UTF-8 decoder: decodes a whole byte list to its code points, or
`none` on invalid input.  Each step consumes at least one byte, so fuel
`bs.length` always suffices (the `0` case with a nonempty list is unreachable
then). -/
def utf8DecodeFuel : Nat → List Nat → Option (List Nat)
  | _, [] => some []
  | 0, _ :: _ => none
  | fuel + 1, b :: bs =>
    match decodeOne (b :: bs) with
    | none => none
    | some (c, r) => (utf8DecodeFuel fuel r).map (fun cps => c :: cps)

/-- Decode a byte list as UTF-8 (`String::from_utf8` followed by `.chars()`):
the list of Unicode scalar values, or `none` if the bytes are not valid
UTF-8. -/
def utf8Decode (bs : List Nat) : Option (List Nat) :=
  utf8DecodeFuel bs.length bs

/-- Unicode whitespace code points: the delimiter class of Rust
`str::split_whitespace` (`char::is_whitespace`, the `White_Space` property). -/
def isWhitespace (c : Nat) : Bool :=
  c = 0x09 || c = 0x0A || c = 0x0B || c = 0x0C || c = 0x0D || c = 0x20 ||
  c = 0x85 || c = 0xA0 || c = 0x1680 || (0x2000 ≤ c && c ≤ 0x200A) ||
  c = 0x2028 || c = 0x2029 || c = 0x202F || c = 0x205F || c = 0x3000

/-- `s.split_whitespace().count()` over a decoded code-point sequence: the
number of maximal runs of non-whitespace code points.  `inWord` records
whether the previous code point belonged to a token. -/
def countTokens (inWord : Bool) : List Nat → Nat
  | [] => 0
  | c :: cs =>
    if isWhitespace c then countTokens false cs
    else (if inWord then 0 else 1) + countTokens true cs

/-- One `BufRead::read_until(10, ..)` call: the consumed segment (with the
delimiter byte retained when present) and the remaining stream.  On an empty
stream the read returns zero bytes: segment `[]`. -/
def takeSeg : List Nat → List Nat × List Nat
  | [] => ([], [])
  | b :: bs =>
    if b = 10 then ([10], bs)
    else
      let p := takeSeg bs
      (b :: p.1, p.2)

/-- Fuelled iteration of `takeSeg`; each nonempty read consumes at least one
byte, so fuel `bs.length` always suffices. -/
def splitSegmentsFuel : Nat → List Nat → List (List Nat)
  | _, [] => []
  | 0, _ :: _ => []
  | fuel + 1, b :: bs =>
    (takeSeg (b :: bs)).1 :: splitSegmentsFuel fuel (takeSeg (b :: bs)).2

/-- The sequence of segments produced by repeatedly calling `read_until` on
the stream until a read returns zero bytes: the loop structure of
`count_buf`. -/
def splitSegments (bs : List Nat) : List (List Nat) :=
  splitSegmentsFuel bs.length bs

/-- The loop body of `count_buf`, iterated over the remaining segments with
the accumulated `CountResult`.  Per segment: `lines += 1`, `bytes += len`,
decode as UTF-8 (`none` on failure, modelling the `expect` panic), then
`words += split_whitespace().count()` and `chars += chars().count()`. -/
def count_buf_go : List (List Nat) → CountResult → Option CountResult
  | [], acc => some acc
  | seg :: rest, acc =>
    match utf8Decode seg with
    | none => none
    | some cps =>
      count_buf_go rest
        { acc with
          lines := acc.lines + 1
          bytes := acc.bytes + seg.length
          words := acc.words + countTokens false cps
          chars := acc.chars + cps.length }

/-- `count_buf`: count one input source.  `filename` is the optional label
(`BufferDetails::filename`), `input` the full byte stream of the source. -/
def count_buf (filename : Option String) (input : List Nat) : Option CountResult :=
  count_buf_go (splitSegments input) { emptyCount with summary := filename }

/-- `sum_results`: fold the field-wise sums of all results into a fresh
result labelled `Total`. -/
def sum_results (results : List CountResult) : CountResult :=
  results.foldl
    (fun total result =>
      { total with
        lines := total.lines + result.lines
        words := total.words + result.words
        chars := total.chars + result.chars
        bytes := total.bytes + result.bytes })
    { emptyCount with summary := some "Total" }

/-- `Vec::dedup`: remove consecutive repeated elements. -/
def dedupAdj : List Mode → List Mode
  | [] => []
  | [m] => [m]
  | m :: m' :: rest =>
    if m = m' then dedupAdj (m' :: rest) else m :: dedupAdj (m' :: rest)

/-- `modes.sort(); modes.dedup();` at the top of `format_summary`.  Rust
`Vec::sort` is modelled by insertion sort: both produce the sorted permutation,
which is unique as a list for a linear order, so the results coincide. -/
def canon_modes (modes : List Mode) : List Mode :=
  dedupAdj (List.insertionSort (fun a b => a ≤ b) modes)

/-- The Total-appending step of `format_summary`: when more than one result is
present, push the field-wise sum labelled `Total` at the end. -/
def with_total (results : List CountResult) : List CountResult :=
  if 1 < results.length then results ++ [sum_results results] else results

/-- The `output_counts` matrix of `format_summary`: for every result, the
projections of its counters onto the (canonicalized) mode list, in order. -/
def output_counts (results : List CountResult) (modes : List Mode) : List (List Nat) :=
  results.map (fun result => modes.map (fun mode => result.result_from_mode mode))

/-- `count.to_string().len()`: decimal-digit length of a count.  For the ASCII
decimal representation, byte length and character length agree. -/
def digits_len (n : Nat) : Nat := (Nat.repr n).length

/-- Right alignment with space fill to a given width, as used by
`format_summary` on each count: pads on the left, never truncates. -/
def padLeft (w : Nat) (s : String) : String :=
  String.mk (List.replicate (w - s.length) ' ' ++ s.data)

/-- The `output_counts_fmtd` matrix of `format_summary`: every projected count
rendered right-aligned to the shared width `w`. -/
def output_counts_fmtd (oc : List (List Nat)) (w : Nat) : List (List String) :=
  oc.map (fun counts => counts.map (fun count => padLeft w (Nat.repr count)))

/-- `format_summary` up to the final newline join: canonicalize the modes,
append the Total result when more than one result is present, project the
counts, compute the single shared column width (`max_size`; `none` models the
`expect` panic when there is nothing to display), render each result as its
padded counts space-joined followed by one space and its label. -/
def summary_rows (results : List CountResult) (modes : List Mode) :
    Option (List String) :=
  let modes' := canon_modes modes
  let results' := with_total results
  let oc := output_counts results' modes'
  match (oc.flatten.map digits_len).max? with
  | none => none
  | some max_size =>
    some (((output_counts_fmtd oc max_size).zip results').map
      (fun p => String.intercalate " " p.1 ++ " " ++ p.2.summary.getD ""))

/-- `format_summary`: the rendered rows joined with newline separators (no
trailing newline). -/
def format_summary (results : List CountResult) (modes : List Mode) :
    Option String :=
  (summary_rows results modes).map (String.intercalate "\n")

/-- The argument loop of `main`: each argument is either a recognized flag
(collected into the mode list) or anything else (collected, in order, as a
filename). -/
def parse_args : List String → List Mode × List String
  | [] => ([], [])
  | arg :: rest =>
    let p := parse_args rest
    match Mode.from_str arg with
    | some m => (m :: p.1, p.2)
    | none => (p.1, arg :: p.2)

/-- The default mode list substituted by `main` when no flag was given. -/
def default_modes : List Mode := [Mode.Lines, Mode.Words, Mode.Bytes]

/-- The mode list `main` passes to `format_summary`: the parsed flags, or the
default when none were given. -/
def effective_modes (args : List String) : List Mode :=
  let p := parse_args args
  if p.1.length = 0 then default_modes else p.1

/-- The counting-and-reporting pipeline of `main` for already-opened sources:
count each source in argument order, then format the summary.  `none` models a
panic: abnormal termination with no report printed. -/
def run_sources (sources : List (Option String × List Nat)) (modes : List Mode) :
    Option String :=
  (sources.mapM (fun src => count_buf src.1 src.2)).bind
    (fun results => format_summary results modes)

end Wc

namespace Wc

theorem cont3_bound {b0 b1 : Nat} (h : cont3 b0 b1 = true) : 0x80 ≤ b1 ∧ b1 ≤ 0xBF := by
  unfold cont3 isCont at h
  split_ifs at h <;> simp at h <;> omega

theorem cont4_bound {b0 b1 : Nat} (h : cont4 b0 b1 = true) : 0x80 ≤ b1 ∧ b1 ≤ 0xBF := by
  unfold cont4 isCont at h
  split_ifs at h <;> simp at h <;> omega

theorem isCont_bound {b : Nat} (h : isCont b = true) : 0x80 ≤ b ∧ b ≤ 0xBF := by
  simpa [isCont] using h

theorem decodeOne_spec : ∀ {bs : List Nat} {c : Nat} {r : List Nat},
    decodeOne bs = some (c, r) →
    ∃ pre, bs = pre ++ r ∧ pre ≠ [] ∧ (10 ∈ pre → pre = [10]) ∧
      ∀ t, decodeOne (pre ++ t) = some (c, t)
  | [], c, r, h => by simp [decodeOne] at h
  | b0 :: rest, c, r, h => by
    rw [decodeOne.eq_def] at h
    simp only [] at h
    by_cases h0 : b0 < 0x80
    · rw [if_pos h0] at h
      simp only [Option.some.injEq, Prod.mk.injEq] at h
      obtain ⟨rfl, rfl⟩ := h
      refine ⟨[b0], rfl, by simp, ?_, fun t => by simp [decodeOne, h0]⟩
      intro hm
      simp only [List.mem_singleton] at hm
      simp [hm]
    · rw [if_neg h0] at h
      by_cases h1 : b0 < 0xC2
      · rw [if_pos h1] at h; simp at h
      · rw [if_neg h1] at h
        by_cases h2 : b0 ≤ 0xDF
        · rw [if_pos h2] at h
          match rest with
          | [] => simp at h
          | b1 :: rest1 =>
            by_cases hc : isCont b1 = true
            · simp only [hc, if_true] at h
              simp only [Option.some.injEq, Prod.mk.injEq] at h
              obtain ⟨rfl, rfl⟩ := h
              refine ⟨[b0, b1], rfl, by simp, ?_, ?_⟩
              · intro hm
                exfalso
                have hb1 := isCont_bound hc
                simp only [List.mem_cons, List.mem_singleton, List.not_mem_nil,
                  or_false] at hm
                rcases hm with hm | hm <;> omega
              · intro t
                simp only [List.cons_append, List.nil_append, decodeOne.eq_def]
                simp [h0, h1, h2, hc]
            · simp [hc] at h
        · rw [if_neg h2] at h
          by_cases h3 : b0 ≤ 0xEF
          · rw [if_pos h3] at h
            match rest with
            | [] => simp at h
            | [b1] => simp at h
            | b1 :: b2 :: rest2 =>
              by_cases hc : (cont3 b0 b1 && isCont b2) = true
              · simp only [hc, if_true] at h
                simp only [Option.some.injEq, Prod.mk.injEq] at h
                obtain ⟨rfl, rfl⟩ := h
                simp only [Bool.and_eq_true] at hc
                refine ⟨[b0, b1, b2], rfl, by simp, ?_, ?_⟩
                · intro hm
                  exfalso
                  have hb1 := cont3_bound hc.1
                  have hb2 := isCont_bound hc.2
                  simp only [List.mem_cons, List.mem_singleton, List.not_mem_nil,
                    or_false] at hm
                  rcases hm with hm | hm | hm <;> omega
                · intro t
                  simp only [List.cons_append, List.nil_append, decodeOne.eq_def]
                  simp [h0, h1, h2, h3, hc.1, hc.2]
              · simp [hc] at h
          · rw [if_neg h3] at h
            by_cases h4 : b0 ≤ 0xF4
            · rw [if_pos h4] at h
              match rest with
              | [] => simp at h
              | [b1] => simp at h
              | [b1, b2] => simp at h
              | b1 :: b2 :: b3 :: rest3 =>
                by_cases hc : (cont4 b0 b1 && isCont b2 && isCont b3) = true
                · simp only [hc, if_true] at h
                  simp only [Option.some.injEq, Prod.mk.injEq] at h
                  obtain ⟨rfl, rfl⟩ := h
                  simp only [Bool.and_eq_true] at hc
                  refine ⟨[b0, b1, b2, b3], rfl, by simp, ?_, ?_⟩
                  · intro hm
                    exfalso
                    have hb1 := cont4_bound hc.1.1
                    have hb2 := isCont_bound hc.1.2
                    have hb3 := isCont_bound hc.2
                    simp only [List.mem_cons, List.mem_singleton, List.not_mem_nil,
                      or_false] at hm
                    rcases hm with hm | hm | hm | hm <;> omega
                  · intro t
                    simp only [List.cons_append, List.nil_append, decodeOne.eq_def]
                    simp [h0, h1, h2, h3, h4, hc.1.1, hc.1.2, hc.2]
                · simp [hc] at h
            · rw [if_neg h4] at h
              simp at h

end Wc

namespace Wc

theorem decodeOne_length {bs : List Nat} {c : Nat} {r : List Nat}
    (h : decodeOne bs = some (c, r)) : r.length < bs.length := by
  obtain ⟨pre, rfl, hne, -, -⟩ := decodeOne_spec h
  have : 0 < pre.length := List.length_pos.mpr hne
  simp [List.length_append]
  omega

theorem utf8DecodeFuel_mono : ∀ (f1 f2 : Nat) (bs : List Nat),
    bs.length ≤ f1 → bs.length ≤ f2 → utf8DecodeFuel f1 bs = utf8DecodeFuel f2 bs := by
  intro f1
  induction f1 with
  | zero =>
    intro f2 bs h1 _
    have : bs = [] := List.eq_nil_of_length_eq_zero (Nat.le_zero.mp h1)
    subst this
    cases f2 <;> rfl
  | succ f1 ih =>
    intro f2 bs h1 h2
    match bs with
    | [] => cases f2 <;> rfl
    | b :: bs' =>
      match f2 with
      | 0 => simp at h2
      | f2' + 1 =>
        simp only [utf8DecodeFuel]
        cases hd : decodeOne (b :: bs') with
        | none => rfl
        | some cr =>
          obtain ⟨c, r⟩ := cr
          have hl := decodeOne_length hd
          simp only [List.length_cons] at h1 h2 hl
          simp only []
          rw [ih f2' r (by omega) (by omega)]

theorem utf8Decode_nil : utf8Decode [] = some [] := rfl

theorem utf8Decode_cons (b : Nat) (bs : List Nat) :
    utf8Decode (b :: bs) =
      match decodeOne (b :: bs) with
      | none => none
      | some (c, r) => (utf8Decode r).map (fun cps => c :: cps) := by
  show utf8DecodeFuel (b :: bs).length (b :: bs) = _
  simp only [List.length_cons, utf8DecodeFuel]
  cases hd : decodeOne (b :: bs) with
  | none => rfl
  | some cr =>
    obtain ⟨c, r⟩ := cr
    have hl := decodeOne_length hd
    simp only [List.length_cons] at hl
    simp only []
    rw [utf8DecodeFuel_mono bs.length r.length r (by omega) le_rfl]
    rfl

theorem utf8Decode_append : ∀ (n : Nat) (a b : List Nat), a.length ≤ n →
    (utf8Decode a).isSome = true → (utf8Decode b).isSome = true →
    (utf8Decode (a ++ b)).isSome = true := by
  intro n
  induction n with
  | zero =>
    intro a b h1 _ hb
    have : a = [] := List.eq_nil_of_length_eq_zero (Nat.le_zero.mp h1)
    subst this
    simpa using hb
  | succ n ih =>
    intro a b h1 ha hb
    match a with
    | [] => simpa using hb
    | x :: a' =>
      rw [utf8Decode_cons] at ha
      cases hd : decodeOne (x :: a') with
      | none => rw [hd] at ha; simp at ha
      | some cr =>
        obtain ⟨c, r⟩ := cr
        rw [hd] at ha
        simp only [Option.isSome_map'] at ha
        obtain ⟨pre, heq, hne, -, happ⟩ := decodeOne_spec hd
        have hr : r.length ≤ n := by
          have := decodeOne_length hd
          simp only [List.length_cons] at this h1
          omega
        have hvalid : (utf8Decode (r ++ b)).isSome = true := ih r b hr ha hb
        have hshape : (x :: a') ++ b = pre ++ (r ++ b) := by
          rw [heq, List.append_assoc]
        rw [List.cons_append, utf8Decode_cons]
        have : decodeOne (x :: (a' ++ b)) = some (c, r ++ b) := by
          rw [← List.cons_append, hshape]
          exact happ (r ++ b)
        rw [this]
        simpa using hvalid

end Wc

namespace Wc

theorem takeSeg_append : ∀ (bs : List Nat), (takeSeg bs).1 ++ (takeSeg bs).2 = bs
  | [] => rfl
  | b :: bs => by
    rw [takeSeg]
    by_cases hb : b = 10
    · simp [hb]
    · simp only [if_neg hb]
      simpa using takeSeg_append bs

theorem takeSeg_fst_ne_nil {bs : List Nat} (h : bs ≠ []) : (takeSeg bs).1 ≠ [] := by
  match bs with
  | b :: bs' =>
    rw [takeSeg]
    by_cases hb : b = 10 <;> simp [hb]

theorem takeSeg_snd_length {bs : List Nat} (h : bs ≠ []) :
    (takeSeg bs).2.length < bs.length := by
  have happ := takeSeg_append bs
  have hne := takeSeg_fst_ne_nil h
  have : 0 < (takeSeg bs).1.length := List.length_pos.mpr hne
  calc (takeSeg bs).2.length
      < (takeSeg bs).1.length + (takeSeg bs).2.length := by omega
    _ = bs.length := by rw [← List.length_append, happ]

theorem takeSeg_self : ∀ (bs : List Nat), takeSeg ((takeSeg bs).1) = ((takeSeg bs).1, [])
  | [] => rfl
  | b :: bs => by
    rw [takeSeg]
    by_cases hb : b = 10
    · simp [hb, takeSeg]
    · simp only [if_neg hb]
      have ih := takeSeg_self bs
      rw [takeSeg, if_neg hb]
      simp [ih]

theorem takeSeg_cons_of_head_not_lf {b : Nat} {bs : List Nat} (hb : b ≠ 10) :
    takeSeg (b :: bs) = (b :: (takeSeg bs).1, (takeSeg bs).2) := by
  rw [takeSeg, if_neg hb]

theorem takeSeg_no_lf_append : ∀ {pre : List Nat} (r : List Nat),
    (∀ x ∈ pre, x ≠ 10) → pre ≠ [] →
    takeSeg (pre ++ r) = (pre ++ (takeSeg r).1, (takeSeg r).2)
  | [], r, h, hne => absurd rfl hne
  | p :: pre, r, h, _ => by
    have hp : p ≠ 10 := h p (List.mem_cons_self p pre)
    match pre with
    | [] =>
      simp only [List.nil_append, List.cons_append]
      rw [takeSeg_cons_of_head_not_lf hp]
    | q :: pre' =>
      have ih := @takeSeg_no_lf_append (q :: pre') r
        (fun x hx => h x (List.mem_cons_of_mem p hx)) (by simp)
      rw [List.cons_append, takeSeg_cons_of_head_not_lf hp, ih]
      simp

theorem splitSegmentsFuel_mono : ∀ (f1 f2 : Nat) (bs : List Nat),
    bs.length ≤ f1 → bs.length ≤ f2 →
    splitSegmentsFuel f1 bs = splitSegmentsFuel f2 bs := by
  intro f1
  induction f1 with
  | zero =>
    intro f2 bs h1 _
    have : bs = [] := List.eq_nil_of_length_eq_zero (Nat.le_zero.mp h1)
    subst this
    cases f2 <;> rfl
  | succ f1 ih =>
    intro f2 bs h1 h2
    match bs with
    | [] => cases f2 <;> rfl
    | b :: bs' =>
      match f2 with
      | 0 => simp at h2
      | f2' + 1 =>
        simp only [splitSegmentsFuel]
        have hl := takeSeg_snd_length (show (b :: bs') ≠ [] by simp)
        simp only [List.length_cons] at h1 h2 hl
        rw [ih f2' ((takeSeg (b :: bs')).2) (by omega) (by omega)]

theorem splitSegments_nil : splitSegments [] = [] := rfl

theorem splitSegments_cons {bs : List Nat} (h : bs ≠ []) :
    splitSegments bs = (takeSeg bs).1 :: splitSegments ((takeSeg bs).2) := by
  match bs with
  | b :: bs' =>
    show splitSegmentsFuel (b :: bs').length (b :: bs') = _
    simp only [List.length_cons, splitSegmentsFuel]
    have hl := takeSeg_snd_length (show (b :: bs') ≠ [] by simp)
    simp only [List.length_cons] at hl
    rw [splitSegmentsFuel_mono bs'.length ((takeSeg (b :: bs')).2.length)
      ((takeSeg (b :: bs')).2) (by omega) le_rfl]
    rfl

theorem splitSegments_flatten : ∀ (n : Nat) (bs : List Nat), bs.length ≤ n →
    (splitSegments bs).flatten = bs := by
  intro n
  induction n with
  | zero =>
    intro bs h
    have : bs = [] := List.eq_nil_of_length_eq_zero (Nat.le_zero.mp h)
    subst this
    rfl
  | succ n ih =>
    intro bs h
    by_cases hbs : bs = []
    · subst hbs; rfl
    · rw [splitSegments_cons hbs]
      have hl := takeSeg_snd_length hbs
      rw [List.flatten_cons, ih ((takeSeg bs).2) (by omega), takeSeg_append]

theorem splitSegments_shape : ∀ (n : Nat) (bs : List Nat), bs.length ≤ n →
    ∀ seg ∈ splitSegments bs, takeSeg seg = (seg, []) ∧ seg ≠ [] := by
  intro n
  induction n with
  | zero =>
    intro bs h seg hseg
    have : bs = [] := List.eq_nil_of_length_eq_zero (Nat.le_zero.mp h)
    subst this
    simp [splitSegments_nil] at hseg
  | succ n ih =>
    intro bs h seg hseg
    by_cases hbs : bs = []
    · subst hbs; simp [splitSegments_nil] at hseg
    · rw [splitSegments_cons hbs] at hseg
      have hl := takeSeg_snd_length hbs
      rcases List.mem_cons.mp hseg with rfl | hmem
      · exact ⟨takeSeg_self bs, takeSeg_fst_ne_nil hbs⟩
      · exact ih ((takeSeg bs).2) (by omega) seg hmem

theorem takeSeg_valid : ∀ (n : Nat) (bs : List Nat), bs.length ≤ n →
    (utf8Decode bs).isSome = true →
    (utf8Decode (takeSeg bs).1).isSome = true ∧
      (utf8Decode (takeSeg bs).2).isSome = true := by
  intro n
  induction n with
  | zero =>
    intro bs h _
    have : bs = [] := List.eq_nil_of_length_eq_zero (Nat.le_zero.mp h)
    subst this
    exact ⟨rfl, rfl⟩
  | succ n ih =>
    intro bs h hv
    match bs with
    | [] => exact ⟨rfl, rfl⟩
    | x :: bs' =>
      rw [utf8Decode_cons] at hv
      cases hd : decodeOne (x :: bs') with
      | none => rw [hd] at hv; simp at hv
      | some cr =>
        obtain ⟨c, r⟩ := cr
        rw [hd] at hv
        simp only [Option.isSome_map'] at hv
        obtain ⟨pre, heq, hne, h10, happ⟩ := decodeOne_spec hd
        have hr : r.length ≤ n := by
          have := decodeOne_length hd
          simp only [List.length_cons] at this h
          omega
        by_cases hmem : 10 ∈ pre
        · have hpre := h10 hmem
          subst hpre
          have hx : x :: bs' = 10 :: r := by simpa using heq
          rw [hx, show takeSeg (10 :: r) = ([10], r) from by rw [takeSeg, if_pos rfl]]
          exact ⟨(by decide : (utf8Decode [10]).isSome = true), hv⟩
        · have hprev : (utf8Decode pre).isSome = true := by
            have : decodeOne (pre ++ []) = some (c, []) := happ []
            rw [List.append_nil] at this
            match pre, hne with
            | p :: pre', _ =>
              rw [utf8Decode_cons, this]
              rfl
          have ihr := ih r hr hv
          rw [heq, takeSeg_no_lf_append r (fun x hx => by
            intro hx10; exact hmem (hx10 ▸ hx)) hne]
          constructor
          · exact utf8Decode_append pre.length pre ((takeSeg r).1) le_rfl hprev ihr.1
          · exact ihr.2

theorem splitSegments_valid : ∀ (n : Nat) (bs : List Nat), bs.length ≤ n →
    (utf8Decode bs).isSome = true →
    ∀ seg ∈ splitSegments bs, (utf8Decode seg).isSome = true := by
  intro n
  induction n with
  | zero =>
    intro bs h _ seg hseg
    have : bs = [] := List.eq_nil_of_length_eq_zero (Nat.le_zero.mp h)
    subst this
    simp [splitSegments_nil] at hseg
  | succ n ih =>
    intro bs h hv seg hseg
    by_cases hbs : bs = []
    · subst hbs; simp [splitSegments_nil] at hseg
    · rw [splitSegments_cons hbs] at hseg
      have hl := takeSeg_snd_length hbs
      have hts := takeSeg_valid bs.length bs le_rfl hv
      rcases List.mem_cons.mp hseg with rfl | hmem
      · exact hts.1
      · exact ih ((takeSeg bs).2) (by omega) hts.2 seg hmem

end Wc

namespace Wc

theorem count_buf_go_spec : ∀ (segs : List (List Nat)) (acc r : CountResult),
    count_buf_go segs acc = some r →
    ∃ cpss, segs.mapM utf8Decode = some cpss ∧
      r.summary = acc.summary ∧
      r.lines = acc.lines + segs.length ∧
      r.bytes = acc.bytes + (segs.map List.length).sum ∧
      r.words = acc.words + (cpss.map (countTokens false)).sum ∧
      r.chars = acc.chars + (cpss.map List.length).sum := by
  intro segs
  induction segs with
  | nil =>
    intro acc r h
    simp only [count_buf_go, Option.some.injEq] at h
    subst h
    exact ⟨[], rfl, rfl, by simp, by simp, by simp, by simp⟩
  | cons seg rest ih =>
    intro acc r h
    rw [count_buf_go] at h
    cases hd : utf8Decode seg with
    | none => rw [hd] at h; simp at h
    | some cps =>
      rw [hd] at h
      simp only [] at h
      obtain ⟨cpss, hmapM, hsum, hlines, hbytes, hwords, hchars⟩ := ih _ r h
      refine ⟨cps :: cpss, ?_, ?_, ?_, ?_, ?_, ?_⟩
      · rw [List.mapM_cons, hd, hmapM]; rfl
      · simpa using hsum
      · simp only [List.length_cons] at hlines ⊢
        omega
      · simp only [List.map_cons, List.sum_cons] at hbytes ⊢
        omega
      · simp only [List.map_cons, List.sum_cons] at hwords ⊢
        omega
      · simp only [List.map_cons, List.sum_cons] at hchars ⊢
        omega

theorem count_buf_go_total : ∀ (segs : List (List Nat)) (acc : CountResult),
    (∀ seg ∈ segs, (utf8Decode seg).isSome = true) →
    ∃ r, count_buf_go segs acc = some r := by
  intro segs
  induction segs with
  | nil => intro acc _; exact ⟨acc, rfl⟩
  | cons seg rest ih =>
    intro acc hall
    have hseg := hall seg (List.mem_cons_self seg rest)
    cases hd : utf8Decode seg with
    | none => rw [hd] at hseg; simp at hseg
    | some cps =>
      rw [count_buf_go, hd]
      exact ih _ (fun s hs => hall s (List.mem_cons_of_mem seg hs))

theorem count_buf_go_none : ∀ (segs : List (List Nat)) (acc : CountResult)
    (seg : List Nat), seg ∈ segs → utf8Decode seg = none →
    count_buf_go segs acc = none := by
  intro segs
  induction segs with
  | nil => intro acc seg h _; simp at h
  | cons s rest ih =>
    intro acc seg hmem hbad
    rcases List.mem_cons.mp hmem with rfl | hmem'
    · rw [count_buf_go, hbad]
    · rw [count_buf_go]
      cases hd : utf8Decode s with
      | none => rfl
      | some cps => exact ih _ seg hmem' hbad

theorem sum_results_spec (results : List CountResult) :
    (sum_results results).summary = some "Total" ∧
    (sum_results results).lines = (results.map CountResult.lines).sum ∧
    (sum_results results).words = (results.map CountResult.words).sum ∧
    (sum_results results).chars = (results.map CountResult.chars).sum ∧
    (sum_results results).bytes = (results.map CountResult.bytes).sum := by
  have key : ∀ (rs : List CountResult) (acc : CountResult),
      (rs.foldl (fun total result =>
        { total with
          lines := total.lines + result.lines
          words := total.words + result.words
          chars := total.chars + result.chars
          bytes := total.bytes + result.bytes }) acc).summary = acc.summary ∧
      (rs.foldl (fun total result =>
        { total with
          lines := total.lines + result.lines
          words := total.words + result.words
          chars := total.chars + result.chars
          bytes := total.bytes + result.bytes }) acc).lines =
        acc.lines + (rs.map CountResult.lines).sum ∧
      (rs.foldl (fun total result =>
        { total with
          lines := total.lines + result.lines
          words := total.words + result.words
          chars := total.chars + result.chars
          bytes := total.bytes + result.bytes }) acc).words =
        acc.words + (rs.map CountResult.words).sum ∧
      (rs.foldl (fun total result =>
        { total with
          lines := total.lines + result.lines
          words := total.words + result.words
          chars := total.chars + result.chars
          bytes := total.bytes + result.bytes }) acc).chars =
        acc.chars + (rs.map CountResult.chars).sum ∧
      (rs.foldl (fun total result =>
        { total with
          lines := total.lines + result.lines
          words := total.words + result.words
          chars := total.chars + result.chars
          bytes := total.bytes + result.bytes }) acc).bytes =
        acc.bytes + (rs.map CountResult.bytes).sum := by
    intro rs
    induction rs with
    | nil => intro acc; simp
    | cons r rest ih =>
      intro acc
      simp only [List.foldl_cons, List.map_cons, List.sum_cons]
      obtain ⟨h1, h2, h3, h4, h5⟩ := ih
        { acc with
          lines := acc.lines + r.lines
          words := acc.words + r.words
          chars := acc.chars + r.chars
          bytes := acc.bytes + r.bytes }
      refine ⟨by simpa using h1, ?_, ?_, ?_, ?_⟩
      · rw [h2]; simp only []; omega
      · rw [h3]; simp only []; omega
      · rw [h4]; simp only []; omega
      · rw [h5]; simp only []; omega
  have := key results { emptyCount with summary := some "Total" }
  simpa [sum_results, emptyCount] using this

end Wc

namespace Wc

theorem count_buf_single {seg : List Nat} (hs : takeSeg seg = (seg, []))
    (hn : seg ≠ []) {cps : List Nat} (hd : utf8Decode seg = some cps) :
    count_buf none seg =
      some { summary := none, lines := 1, words := countTokens false cps,
             chars := cps.length, bytes := seg.length } := by
  have hsplit : splitSegments seg = [seg] := by
    rw [splitSegments_cons hn, hs]
    simp [splitSegments_nil]
  rw [count_buf, hsplit, count_buf_go, hd]
  simp [count_buf_go, emptyCount]

theorem count_buf_segments_mapM :
    ∀ (segs : List (List Nat)) (cpss : List (List Nat)),
    (∀ seg ∈ segs, takeSeg seg = (seg, []) ∧ seg ≠ []) →
    segs.mapM utf8Decode = some cpss →
    segs.mapM (count_buf none) =
      some (List.zipWith
        (fun seg cps =>
          { summary := none, lines := 1, words := countTokens false cps,
            chars := cps.length, bytes := seg.length : CountResult })
        segs cpss) := by
  intro segs
  induction segs with
  | nil =>
    intro cpss _ hmapM
    simp only [List.mapM_nil] at hmapM ⊢
    obtain rfl : ([] : List (List Nat)) = cpss := by simpa using hmapM
    rfl
  | cons seg rest ih =>
    intro cpss hshape hmapM
    rw [List.mapM_cons] at hmapM
    cases hd : utf8Decode seg with
    | none => rw [hd] at hmapM; simp at hmapM
    | some cps =>
      rw [hd] at hmapM
      cases hrest : rest.mapM utf8Decode with
      | none => rw [hrest] at hmapM; simp at hmapM
      | some cpss' =>
        rw [hrest] at hmapM
        have hmapM' : cps :: cpss' = cpss := by simpa using hmapM
        subst hmapM'
        have hheadshape := hshape seg (List.mem_cons_self seg rest)
        have hhead := count_buf_single hheadshape.1 hheadshape.2 hd
        have htail := ih cpss' (fun s hs => hshape s (List.mem_cons_of_mem seg hs)) hrest
        rw [List.mapM_cons, hhead, htail]
        rfl

end Wc

namespace Wc

theorem mapM_length {α β : Type} (f : α → Option β) :
    ∀ (l : List α) (l' : List β), l.mapM f = some l' → l'.length = l.length := by
  intro l
  induction l with
  | nil =>
    intro l' h
    simp only [List.mapM_nil] at h
    obtain rfl : ([] : List β) = l' := by simpa using h
    rfl
  | cons x rest ih =>
    intro l' h
    rw [List.mapM_cons] at h
    cases hx : f x with
    | none => rw [hx] at h; simp at h
    | some y =>
      rw [hx] at h
      cases hrest : rest.mapM f with
      | none => rw [hrest] at h; simp at h
      | some ys =>
        rw [hrest] at h
        obtain rfl : y :: ys = l' := by simpa using h
        simp [ih ys hrest]

theorem mapM_none {α β : Type} (f : α → Option β) :
    ∀ (l : List α) (x : α), x ∈ l → f x = none → l.mapM f = none := by
  intro l
  induction l with
  | nil => intro x h _; simp at h
  | cons y rest ih =>
    intro x hmem hbad
    rw [List.mapM_cons]
    rcases List.mem_cons.mp hmem with rfl | hmem'
    · rw [hbad]; rfl
    · cases hy : f y with
      | none => rfl
      | some z => rw [ih x hmem' hbad]; rfl

theorem zipWith_counts_sums :
    ∀ (segs cpss : List (List Nat)), segs.length = cpss.length →
    ((List.zipWith
        (fun seg cps =>
          { summary := none, lines := 1, words := countTokens false cps,
            chars := cps.length, bytes := seg.length : CountResult })
        segs cpss).map CountResult.lines).sum = segs.length ∧
    ((List.zipWith
        (fun seg cps =>
          { summary := none, lines := 1, words := countTokens false cps,
            chars := cps.length, bytes := seg.length : CountResult })
        segs cpss).map CountResult.words).sum = (cpss.map (countTokens false)).sum ∧
    ((List.zipWith
        (fun seg cps =>
          { summary := none, lines := 1, words := countTokens false cps,
            chars := cps.length, bytes := seg.length : CountResult })
        segs cpss).map CountResult.chars).sum = (cpss.map List.length).sum ∧
    ((List.zipWith
        (fun seg cps =>
          { summary := none, lines := 1, words := countTokens false cps,
            chars := cps.length, bytes := seg.length : CountResult })
        segs cpss).map CountResult.bytes).sum = (segs.map List.length).sum := by
  intro segs
  induction segs with
  | nil =>
    intro cpss h
    obtain rfl : cpss = [] := by
      cases cpss with
      | nil => rfl
      | cons c cs => simp at h
    simp
  | cons seg rest ih =>
    intro cpss h
    cases cpss with
    | nil => simp at h
    | cons cps cpss' =>
      simp only [List.length_cons] at h
      obtain ⟨h1, h2, h3, h4⟩ := ih cpss' (by omega)
      simp only [List.zipWith_cons_cons, List.map_cons, List.sum_cons, List.length_cons]
      exact ⟨by rw [h1]; omega, by rw [h2], by rw [h3], by rw [h4]⟩

/-- C2: for every input stream, the `lines` counter equals the number of
line-feed-delimited segments read (the nonempty reads of the `read_until`
loop); a final unterminated segment still counts, and empty input yields
`lines = 0`. -/
theorem counter_lines_eq_segments (name : Option String) (input : List Nat)
    (r : CountResult) (h : count_buf name input = some r) :
    r.lines = (splitSegments input).length ∧ (input = [] → r.lines = 0) := by
  rw [count_buf] at h
  obtain ⟨cpss, -, -, hlines, -, -, -⟩ := count_buf_go_spec _ _ _ h
  simp only [emptyCount] at hlines
  constructor
  · simpa using hlines
  · intro he
    subst he
    simpa [splitSegments_nil] using hlines

theorem counter_lines_eq_segments_witness :
    ({ summary := some "f", lines := 2, words := 2, chars := 4, bytes := 4 } :
      CountResult).lines = (splitSegments [104, 105, 10, 33]).length ∧
    ([104, 105, 10, 33] = ([] : List Nat) →
      ({ summary := some "f", lines := 2, words := 2, chars := 4, bytes := 4 } :
        CountResult).lines = 0) :=
  counter_lines_eq_segments (some "f") [104, 105, 10, 33]
    { summary := some "f", lines := 2, words := 2, chars := 4, bytes := 4 }
    (by decide)

/-- C3: for every input stream, the `bytes` counter equals the exact byte
length of the stream, line-terminator bytes included. -/
theorem counter_bytes_eq_length (name : Option String) (input : List Nat)
    (r : CountResult) (h : count_buf name input = some r) :
    r.bytes = input.length := by
  rw [count_buf] at h
  obtain ⟨cpss, -, -, -, hbytes, -, -⟩ := count_buf_go_spec _ _ _ h
  have hsum : ((splitSegments input).map List.length).sum = input.length := by
    rw [← List.length_flatten, splitSegments_flatten input.length input le_rfl]
  simp only [emptyCount] at hbytes
  omega

theorem counter_bytes_eq_length_witness :
    ({ summary := none, lines := 2, words := 3, chars := 12, bytes := 12 } :
      CountResult).bytes = [102, 111, 111, 32, 98, 97, 114, 10, 98, 97, 122, 10].length :=
  counter_bytes_eq_length none [102, 111, 111, 32, 98, 97, 114, 10, 98, 97, 122, 10]
    { summary := none, lines := 2, words := 3, chars := 12, bytes := 12 }
    (by decide)

/-- C4: running the counter on the whole stream gives the same four counters
as summing, field-wise, the counter run on each line-feed-delimited segment
taken separately. -/
theorem counter_additive (name : Option String) (input : List Nat)
    (r : CountResult) (h : count_buf name input = some r) :
    ∃ rs, (splitSegments input).mapM (count_buf none) = some rs ∧
      (sum_results rs).lines = r.lines ∧ (sum_results rs).words = r.words ∧
      (sum_results rs).chars = r.chars ∧ (sum_results rs).bytes = r.bytes := by
  rw [count_buf] at h
  obtain ⟨cpss, hmapM, -, hlines, hbytes, hwords, hchars⟩ := count_buf_go_spec _ _ _ h
  have hshape := splitSegments_shape input.length input le_rfl
  have hmap := count_buf_segments_mapM _ cpss hshape hmapM
  have hlen := mapM_length utf8Decode _ cpss hmapM
  obtain ⟨z1, z2, z3, z4⟩ := zipWith_counts_sums (splitSegments input) cpss hlen.symm
  obtain ⟨-, s1, s2, s3, s4⟩ := sum_results_spec (List.zipWith
    (fun seg cps =>
      { summary := none, lines := 1, words := countTokens false cps,
        chars := cps.length, bytes := seg.length : CountResult })
    (splitSegments input) cpss)
  refine ⟨_, hmap, ?_, ?_, ?_, ?_⟩
  · rw [s1, z1]
    simp only [emptyCount] at hlines
    omega
  · rw [s2, z2]
    simp only [emptyCount] at hwords
    omega
  · rw [s3, z3]
    simp only [emptyCount] at hchars
    omega
  · rw [s4, z4]
    simp only [emptyCount] at hbytes
    omega

theorem counter_additive_witness :
    ∃ rs, (splitSegments [104, 105, 10, 116, 104, 101, 114, 101, 10]).mapM
        (count_buf none) = some rs ∧
      (sum_results rs).lines =
        ({ summary := none, lines := 2, words := 2, chars := 9, bytes := 9 } :
          CountResult).lines ∧
      (sum_results rs).words =
        ({ summary := none, lines := 2, words := 2, chars := 9, bytes := 9 } :
          CountResult).words ∧
      (sum_results rs).chars =
        ({ summary := none, lines := 2, words := 2, chars := 9, bytes := 9 } :
          CountResult).chars ∧
      (sum_results rs).bytes =
        ({ summary := none, lines := 2, words := 2, chars := 9, bytes := 9 } :
          CountResult).bytes :=
  counter_additive none [104, 105, 10, 116, 104, 101, 114, 101, 10]
    { summary := none, lines := 2, words := 2, chars := 9, bytes := 9 }
    (by decide)

/-- C9: if any line-feed-delimited segment of any source is not valid UTF-8,
the whole run produces no output and terminates abnormally (modelled by
`none`): no report is printed for any source. -/
theorem decode_failure_aborts (sources : List (Option String × List Nat))
    (modes : List Mode) (name : Option String) (bs seg : List Nat)
    (hmem : (name, bs) ∈ sources) (hseg : seg ∈ splitSegments bs)
    (hbad : utf8Decode seg = none) :
    run_sources sources modes = none := by
  have hcb : count_buf name bs = none := by
    rw [count_buf]
    exact count_buf_go_none _ _ seg hseg hbad
  have hall : sources.mapM (fun src => count_buf src.1 src.2) = none :=
    mapM_none _ sources (name, bs) hmem hcb
  rw [run_sources, hall]
  rfl

theorem decode_failure_aborts_witness :
    run_sources [(none, [255])] default_modes = none :=
  decode_failure_aborts [(none, [255])] default_modes none [255] [255]
    (by decide) (by decide) (by decide)

/-- C10: if the whole input stream is valid UTF-8, every line-feed-delimited
segment is itself valid UTF-8 (the byte `0x0A` never occurs inside a
multi-byte UTF-8 sequence), so the per-segment decoding error branch is
unreachable and the counter always returns a result. -/
theorem valid_input_segments_valid (name : Option String) (input : List Nat)
    (h : (utf8Decode input).isSome = true) :
    (∀ seg ∈ splitSegments input, (utf8Decode seg).isSome = true) ∧
    ∃ r, count_buf name input = some r := by
  have hsegs := splitSegments_valid input.length input le_rfl h
  refine ⟨hsegs, ?_⟩
  rw [count_buf]
  exact count_buf_go_total _ _ hsegs

theorem valid_input_segments_valid_witness :
    (∀ seg ∈ splitSegments [226, 130, 172, 10, 104, 105],
      (utf8Decode seg).isSome = true) ∧
    ∃ r, count_buf none [226, 130, 172, 10, 104, 105] = some r :=
  valid_input_segments_valid none [226, 130, 172, 10, 104, 105] (by decide)

end Wc

namespace Wc

/-- C8: when zero metric flags are given, the requested metric set defaults to
exactly Lines, Words, Bytes; Characters is excluded. -/
theorem default_modes_applied (args : List String)
    (h : (parse_args args).1 = []) :
    effective_modes args = [Mode.Lines, Mode.Words, Mode.Bytes] ∧
    Mode.Chars ∉ effective_modes args := by
  have heff : effective_modes args = default_modes := by
    rw [effective_modes]
    simp [h]
  rw [heff]
  exact ⟨rfl, by decide⟩

theorem default_modes_applied_witness :
    effective_modes ["input.txt"] = [Mode.Lines, Mode.Words, Mode.Bytes] ∧
    Mode.Chars ∉ effective_modes ["input.txt"] :=
  default_modes_applied ["input.txt"] (by decide)

theorem dedupAdj_mem : ∀ (l : List Mode) (x : Mode), x ∈ dedupAdj l ↔ x ∈ l := by
  intro l
  induction l using dedupAdj.induct with
  | case1 => intro x; rfl
  | case2 m => intro x; rfl
  | case3 m' rest ih =>
    intro x
    rw [dedupAdj, if_pos rfl]
    rw [ih x]
    simp
  | case4 m m' rest hne ih =>
    intro x
    rw [dedupAdj, if_neg hne]
    simp only [List.mem_cons]
    rw [ih x]
    simp [List.mem_cons]

theorem dedupAdj_sorted : ∀ (l : List Mode), l.Sorted (· ≤ ·) →
    (dedupAdj l).Sorted (· < ·) := by
  intro l
  induction l using dedupAdj.induct with
  | case1 => intro _; simp [dedupAdj]
  | case2 m => intro _; simp [dedupAdj]
  | case3 m' rest ih =>
    intro hs
    rw [dedupAdj, if_pos rfl]
    exact ih (List.sorted_cons.mp hs).2
  | case4 m m' rest hne ih =>
    intro hs
    rw [dedupAdj, if_neg hne]
    obtain ⟨hall, hrest⟩ := List.sorted_cons.mp hs
    rw [List.sorted_cons]
    refine ⟨?_, ih hrest⟩
    intro b hb
    rw [dedupAdj_mem] at hb
    have hm' : m < m' := lt_of_le_of_ne (hall m' (List.mem_cons_self m' rest)) hne
    rcases List.mem_cons.mp hb with rfl | hb'
    · exact hm'
    · exact lt_of_lt_of_le hm' ((List.sorted_cons.mp hrest).1 b hb')

theorem canon_modes_sorted (modes : List Mode) :
    (canon_modes modes).Sorted (· < ·) :=
  dedupAdj_sorted _ (List.sorted_insertionSort (fun a b => a ≤ b) modes)

theorem canon_modes_mem (modes : List Mode) (x : Mode) :
    x ∈ canon_modes modes ↔ x ∈ modes := by
  rw [canon_modes, dedupAdj_mem]
  exact (List.perm_insertionSort (fun a b => a ≤ b) modes).mem_iff

/-- C5: the displayed metric columns are the distinct requested metrics sorted
ascending by the fixed ordering Lines < Words < Chars < Bytes, independent of
the order and multiplicity of the flags on the command line. -/
theorem canonical_modes_spec (modes : List Mode) :
    canon_modes modes =
      [Mode.Lines, Mode.Words, Mode.Chars, Mode.Bytes].filter
        (fun m => decide (m ∈ modes)) ∧
    (canon_modes modes).Sorted (· < ·) ∧
    (∀ m, m ∈ canon_modes modes ↔ m ∈ modes) ∧
    (∀ modes', (∀ m, m ∈ modes ↔ m ∈ modes') →
      canon_modes modes = canon_modes modes') := by
  have hsorted := canon_modes_sorted modes
  have hmem := canon_modes_mem modes
  have key : ∀ (ms : List Mode), canon_modes ms =
      [Mode.Lines, Mode.Words, Mode.Chars, Mode.Bytes].filter
        (fun m => decide (m ∈ ms)) := by
    intro ms
    have hsorted' := canon_modes_sorted ms
    have hfiltersorted :
        ([Mode.Lines, Mode.Words, Mode.Chars, Mode.Bytes].filter
          (fun m => decide (m ∈ ms))).Sorted (· < ·) := by
      apply List.Pairwise.filter
      decide
    apply @List.eq_of_perm_of_sorted Mode (fun a b => a ≤ b) inferInstance
    · apply (List.perm_ext_iff_of_nodup
        (hsorted'.nodup) (hfiltersorted.nodup)).mpr
      intro a
      rw [canon_modes_mem, List.mem_filter]
      constructor
      · intro ha
        exact ⟨by cases a <;> decide, decide_eq_true ha⟩
      · intro ha
        exact of_decide_eq_true ha.2
    · exact hsorted'.imp (fun h => le_of_lt h)
    · exact hfiltersorted.imp (fun h => le_of_lt h)
  refine ⟨key modes, hsorted, hmem, ?_⟩
  intro modes' hiff
  rw [key modes, key modes']
  apply List.filter_congr
  intro m _
  simp [hiff m]

end Wc

namespace Wc

/-- C1: with more than one result, `format_summary` appends exactly one
synthetic result labelled Total whose four counters are the field-wise sums
over all per-source results, as the trailing element (hence rendered strictly
after all per-source rows, one row per result); with exactly one result no
Total row is produced. -/
theorem total_row_spec (results : List CountResult) :
    (1 < results.length →
      with_total results = results ++ [sum_results results] ∧
      (sum_results results).summary = some "Total" ∧
      (sum_results results).lines = (results.map CountResult.lines).sum ∧
      (sum_results results).words = (results.map CountResult.words).sum ∧
      (sum_results results).chars = (results.map CountResult.chars).sum ∧
      (sum_results results).bytes = (results.map CountResult.bytes).sum) ∧
    (results.length = 1 → with_total results = results) ∧
    (∀ modes rows, summary_rows results modes = some rows →
      rows.length = (with_total results).length) := by
  obtain ⟨hs, h1, h2, h3, h4⟩ := sum_results_spec results
  refine ⟨fun hlen => ⟨?_, hs, h1, h2, h3, h4⟩, fun hlen => ?_, ?_⟩
  · rw [with_total, if_pos hlen]
  · rw [with_total, if_neg (by omega)]
  · intro modes rows h
    simp only [summary_rows] at h
    cases hmax : ((output_counts (with_total results)
        (canon_modes modes)).flatten.map digits_len).max? with
    | none => rw [hmax] at h; simp at h
    | some w =>
      rw [hmax] at h
      simp only [Option.some.injEq] at h
      subst h
      simp [output_counts_fmtd, output_counts]

theorem total_row_spec_witness :
    with_total
        [{ summary := some "a", lines := 1, words := 1, chars := 3, bytes := 3 },
         { summary := some "b", lines := 100, words := 1, chars := 6, bytes := 6 }] =
      [{ summary := some "a", lines := 1, words := 1, chars := 3, bytes := 3 },
       { summary := some "b", lines := 100, words := 1, chars := 6, bytes := 6 }] ++
        [sum_results
          [{ summary := some "a", lines := 1, words := 1, chars := 3, bytes := 3 },
           { summary := some "b", lines := 100, words := 1, chars := 6, bytes := 6 }]] ∧
    (sum_results
        [{ summary := some "a", lines := 1, words := 1, chars := 3, bytes := 3 },
         { summary := some "b", lines := 100, words := 1, chars := 6, bytes := 6 }]).summary =
      some "Total" ∧
    (sum_results
        [{ summary := some "a", lines := 1, words := 1, chars := 3, bytes := 3 },
         { summary := some "b", lines := 100, words := 1, chars := 6, bytes := 6 }]).lines =
      (List.map CountResult.lines
        [{ summary := some "a", lines := 1, words := 1, chars := 3, bytes := 3 },
         { summary := some "b", lines := 100, words := 1, chars := 6, bytes := 6 }]).sum ∧
    (sum_results
        [{ summary := some "a", lines := 1, words := 1, chars := 3, bytes := 3 },
         { summary := some "b", lines := 100, words := 1, chars := 6, bytes := 6 }]).words =
      (List.map CountResult.words
        [{ summary := some "a", lines := 1, words := 1, chars := 3, bytes := 3 },
         { summary := some "b", lines := 100, words := 1, chars := 6, bytes := 6 }]).sum ∧
    (sum_results
        [{ summary := some "a", lines := 1, words := 1, chars := 3, bytes := 3 },
         { summary := some "b", lines := 100, words := 1, chars := 6, bytes := 6 }]).chars =
      (List.map CountResult.chars
        [{ summary := some "a", lines := 1, words := 1, chars := 3, bytes := 3 },
         { summary := some "b", lines := 100, words := 1, chars := 6, bytes := 6 }]).sum ∧
    (sum_results
        [{ summary := some "a", lines := 1, words := 1, chars := 3, bytes := 3 },
         { summary := some "b", lines := 100, words := 1, chars := 6, bytes := 6 }]).bytes =
      (List.map CountResult.bytes
        [{ summary := some "a", lines := 1, words := 1, chars := 3, bytes := 3 },
         { summary := some "b", lines := 100, words := 1, chars := 6, bytes := 6 }]).sum :=
  (total_row_spec
    [{ summary := some "a", lines := 1, words := 1, chars := 3, bytes := 3 },
     { summary := some "b", lines := 100, words := 1, chars := 6, bytes := 6 }]).1
    (by decide)

theorem foldl_max_le : ∀ (as : List Nat) (a x : Nat), x = a ∨ x ∈ as →
    x ≤ as.foldl max a := by
  intro as
  induction as with
  | nil =>
    intro a x h
    rcases h with rfl | h
    · exact le_rfl
    · simp at h
  | cons b bs ih =>
    intro a x h
    simp only [List.foldl_cons]
    rcases h with rfl | h
    · exact le_trans (le_max_left x b) (ih (max x b) (max x b) (Or.inl rfl))
    · rcases List.mem_cons.mp h with rfl | h'
      · exact le_trans (le_max_right a x) (ih (max a x) (max a x) (Or.inl rfl))
      · exact ih (max a b) x (Or.inr h')

theorem foldl_max_mem : ∀ (as : List Nat) (a : Nat),
    as.foldl max a = a ∨ as.foldl max a ∈ as := by
  intro as
  induction as with
  | nil => intro a; exact Or.inl rfl
  | cons b bs ih =>
    intro a
    simp only [List.foldl_cons]
    rcases ih (max a b) with h | h
    · rcases le_total a b with hab | hba
      · rw [h, max_eq_right hab]
        exact Or.inr (List.mem_cons_self b bs)
      · rw [h, max_eq_left hba]
        exact Or.inl rfl
    · exact Or.inr (List.mem_cons_of_mem b h)

theorem max?_spec {l : List Nat} {w : Nat} (h : l.max? = some w) :
    w ∈ l ∧ ∀ x ∈ l, x ≤ w := by
  match l with
  | [] => simp [List.max?] at h
  | a :: as =>
    have hw : as.foldl max a = w := by simpa [List.max?] using h
    constructor
    · rcases foldl_max_mem as a with hm | hm
      · rw [← hw, hm]; exact List.mem_cons_self a as
      · rw [← hw]; exact List.mem_cons_of_mem a hm
    · intro x hx
      rw [← hw]
      rcases List.mem_cons.mp hx with rfl | hx'
      · exact foldl_max_le as x x (Or.inl rfl)
      · exact foldl_max_le as a x (Or.inr hx')

theorem padLeft_length {w : Nat} {s : String} (h : s.length ≤ w) :
    (padLeft w s).length = w := by
  show (List.replicate (w - s.length) ' ' ++ s.data).length = w
  rw [List.length_append, List.length_replicate]
  have hd : s.data.length = s.length := rfl
  omega

/-- C6: the rendering uses one single shared column width, equal to the
maximum decimal-digit length over all projected count values of all rows
(Total included) and all requested metrics, and every projected count is
rendered right-aligned (space-padded on the left) to exactly that width. -/
theorem global_width_spec (results : List CountResult) (modes : List Mode)
    (rows : List String) (h : summary_rows results modes = some rows) :
    ∃ w, ((output_counts (with_total results)
          (canon_modes modes)).flatten.map digits_len).max? = some w ∧
      (∀ c ∈ (output_counts (with_total results) (canon_modes modes)).flatten,
        digits_len c ≤ w) ∧
      (∃ c ∈ (output_counts (with_total results) (canon_modes modes)).flatten,
        digits_len c = w) ∧
      (∀ row ∈ output_counts_fmtd
          (output_counts (with_total results) (canon_modes modes)) w,
        ∀ cell ∈ row, cell.length = w ∧
          ∃ n ∈ (output_counts (with_total results) (canon_modes modes)).flatten,
            cell = padLeft w (Nat.repr n) ∧
            cell.data = List.replicate (w - digits_len n) ' ' ++ (Nat.repr n).data) ∧
      rows = ((output_counts_fmtd
            (output_counts (with_total results) (canon_modes modes)) w).zip
          (with_total results)).map
        (fun p => String.intercalate " " p.1 ++ " " ++ p.2.summary.getD "") := by
  simp only [summary_rows] at h
  cases hmax : ((output_counts (with_total results)
      (canon_modes modes)).flatten.map digits_len).max? with
  | none => rw [hmax] at h; simp at h
  | some w =>
    rw [hmax] at h
    simp only [Option.some.injEq] at h
    obtain ⟨hwmem, hwmax⟩ := max?_spec hmax
    refine ⟨w, rfl, ?_, ?_, ?_, h.symm⟩
    · intro c hc
      exact hwmax _ (List.mem_map_of_mem digits_len hc)
    · obtain ⟨c, hc, hcw⟩ := List.mem_map.mp hwmem
      exact ⟨c, hc, hcw⟩
    · intro row hrow cell hcell
      simp only [output_counts_fmtd, List.mem_map] at hrow
      obtain ⟨counts, hcounts, rfl⟩ := hrow
      simp only [List.mem_map] at hcell
      obtain ⟨n, hn, rfl⟩ := hcell
      have hnflat : n ∈ (output_counts (with_total results)
          (canon_modes modes)).flatten :=
        List.mem_flatten.mpr ⟨counts, hcounts, hn⟩
      have hle : digits_len n ≤ w := hwmax _ (List.mem_map_of_mem digits_len hnflat)
      exact ⟨padLeft_length hle, n, hnflat, rfl, rfl⟩

end Wc

namespace Wc

theorem global_width_spec_witness :
    ∃ w, ((output_counts (with_total
          [{ summary := none, lines := 2, words := 3, chars := 12, bytes := 12 }])
          (canon_modes default_modes)).flatten.map digits_len).max? = some w ∧
      (∀ c ∈ (output_counts (with_total
          [{ summary := none, lines := 2, words := 3, chars := 12, bytes := 12 }])
          (canon_modes default_modes)).flatten, digits_len c ≤ w) ∧
      (∃ c ∈ (output_counts (with_total
          [{ summary := none, lines := 2, words := 3, chars := 12, bytes := 12 }])
          (canon_modes default_modes)).flatten, digits_len c = w) ∧
      (∀ row ∈ output_counts_fmtd
          (output_counts (with_total
            [{ summary := none, lines := 2, words := 3, chars := 12, bytes := 12 }])
            (canon_modes default_modes)) w,
        ∀ cell ∈ row, cell.length = w ∧
          ∃ n ∈ (output_counts (with_total
              [{ summary := none, lines := 2, words := 3, chars := 12, bytes := 12 }])
              (canon_modes default_modes)).flatten,
            cell = padLeft w (Nat.repr n) ∧
            cell.data = List.replicate (w - digits_len n) ' ' ++ (Nat.repr n).data) ∧
      [" 2  3 12 "] = ((output_counts_fmtd
            (output_counts (with_total
              [{ summary := none, lines := 2, words := 3, chars := 12, bytes := 12 }])
              (canon_modes default_modes)) w).zip
          (with_total
            [{ summary := none, lines := 2, words := 3, chars := 12, bytes := 12 }])).map
        (fun p => String.intercalate " " p.1 ++ " " ++ p.2.summary.getD "") :=
  global_width_spec
    [{ summary := none, lines := 2, words := 3, chars := 12, bytes := 12 }]
    default_modes [" 2  3 12 "] (by decide)

/-- C7 counterexample: on the scenario input with default flags, the rendered
row is not the string claimed by the spec (the formatter pads every count to
the shared width 2). -/
theorem scenario_row_counterexample :
    ((count_buf none [102, 111, 111, 32, 98, 97, 114, 10, 98, 97, 122, 10]).bind
      (fun r => format_summary [r] default_modes)) ≠ some "2 3 12 " := by
  decide

/-- C7 (amended): on input `foo bar\x0Abaz\x0A` with default flags the counter
yields lines 2, words 3, bytes 12, and the rendered row is `\x20\x32\x20\x20\x33\x20\x31\x32\x20`
(counts right-aligned to the shared width 2, space-joined, then one space and
the empty stdin label). -/
theorem scenario_row_amended :
    count_buf none [102, 111, 111, 32, 98, 97, 114, 10, 98, 97, 122, 10] =
      some { summary := none, lines := 2, words := 3, chars := 12, bytes := 12 } ∧
    format_summary
        [{ summary := none, lines := 2, words := 3, chars := 12, bytes := 12 }]
        default_modes = some " 2  3 12 " := by
  constructor
  · decide
  · decide

end Wc
